import Mathlib

/-!
Shallow embedding of the QuantCli indicator and backtest core.

The `indicator` command in `src/main.py` computes SMA, EMA, RSI and MACD
columns with pandas (`rolling(window=period).mean()`, `ewm(span, adjust=False)
.mean()`, `diff`/`where` arithmetic) over the `Close` column of a row-oriented
table, then prunes every row containing an undefined (NaN) cell with
`df.dropna()`.  Cells are modelled as `Option ℚ`, with `none` standing for NaN.
The embedding is stated for tables whose `Close` column is fully defined and
finite, the domain guaranteed by the data model (positive close prices).

The `backtest` command delegates the simulation loop to the external
backtrader library; only the strategy transition rule, the fixed moving-average
periods 50/200 and the initial cash 100000 appear in the repository sources
(`src/strategies/ma_crossover.py`, `src/main.py`).  The pieces supplied by the
external library (the crossover indicator, the order execution model and the
failure modes) are modelled from the specification and are marked as such.
-/

namespace QuantCli

/-- A table cell: `some q` is a finite numeric value, `none` is pandas NaN. -/
abbrev Cell := Option ℚ

/-- Turns a list of cells into `some` of the underlying values exactly when
every cell is defined, `none` as soon as one cell is NaN. -/
def allSome : List Cell → Option (List ℚ)
  | [] => some []
  | none :: _ => none
  | some x :: rest => (allSome rest).map (x :: ·)

/-- One entry of pandas `Series.rolling(window=w).mean()` with the default
`min_periods` (equal to the window): the mean of the last `w` cells ending at
index `i`, NaN while the window is not yet full, if `w = 0` (empty windows,
mean of no observations), or if the window contains a NaN. -/
def rollingMeanAt (w : ℕ) (xs : List Cell) (i : ℕ) : Cell :=
  if w = 0 ∨ i + 1 < w then none
  else
    match allSome ((xs.drop (i + 1 - w)).take w) with
    | some vs => some (vs.sum / (w : ℚ))
    | none => none

/-- pandas `Series.rolling(window=w).mean()`, embedding of
`df['Close'].rolling(window=period).mean()` (src/main.py line 48). -/
def rollingMeanC (w : ℕ) (xs : List Cell) : List Cell :=
  (List.range xs.length).map (rollingMeanAt w xs)

/-- The SMA indicator on a finite close series. -/
def sma (p : ℕ) (closes : List ℚ) : List Cell :=
  rollingMeanC p (closes.map some)

/-- Tail of pandas `ewm(span, adjust=False).mean()` after the seed: each output
is `(1-α)·previous + α·current`. -/
def ewmFrom (a : ℚ) (prev : ℚ) : List ℚ → List ℚ
  | [] => []
  | x :: xs =>
      let y := (1 - a) * prev + a * x
      y :: ewmFrom a y xs

/-- pandas `Series.ewm(span=span, adjust=False).mean()` on a finite series,
embedding of `df['Close'].ewm(span=period, adjust=False).mean()`
(src/main.py line 50): seed is the first value, smoothing factor 2/(span+1).
pandas additionally requires `span ≥ 1`; the theorems below carry that bound. -/
def ewmMean (span : ℕ) : List ℚ → List ℚ
  | [] => []
  | x :: xs => x :: ewmFrom (2 / ((span : ℚ) + 1)) x xs

/-- Per-bar gains, embedding of `delta.where(delta > 0, 0)` applied to
`delta = df['Close'].diff()` (src/main.py lines 52-53).  The first delta is
NaN, and `where` replaces it with 0 because `NaN > 0` is false. -/
def gains : List ℚ → List ℚ
  | [] => []
  | c :: rest => 0 :: List.zipWith (fun cur prev => max (cur - prev) 0) rest (c :: rest)

/-- Per-bar losses, embedding of `(-delta.where(delta < 0, 0))`
(src/main.py line 54); the first NaN delta again becomes 0. -/
def losses : List ℚ → List ℚ
  | [] => []
  | c :: rest => 0 :: List.zipWith (fun cur prev => max (prev - cur) 0) rest (c :: rest)

/-- One RSI cell from an average-gain and an average-loss cell, embedding of
`rs = gain / loss; df['RSI'] = 100 - (100 / (1 + rs))` (src/main.py
lines 55-56) under IEEE float semantics: for the nonnegative rolling means
produced by the code, `loss > 0` gives a finite RS, `gain/0` with `gain > 0`
gives RS = +inf hence RSI = 100 - 100/inf = 100, and `0/0` gives NaN which
propagates to a NaN RSI cell. -/
def rsiCell (g l : Cell) : Cell :=
  match g, l with
  | some gv, some lv =>
      if lv ≠ 0 then some (100 - 100 / (1 + gv / lv))
      else if gv ≠ 0 then some 100
      else none
  | _, _ => none

/-- The RSI column (src/main.py lines 51-56): rolling means (the same
`rolling(window=period).mean()` as the SMA) of gains and losses over `p` bars,
combined cellwise. -/
def rsi (p : ℕ) (closes : List ℚ) : List Cell :=
  List.zipWith rsiCell (sma p (gains closes)) (sma p (losses closes))

/-- The rolling average gain at bar `i` used by the RSI computation. -/
def avgGain (p : ℕ) (closes : List ℚ) (i : ℕ) : Cell :=
  (sma p (gains closes)).getD i none

/-- The rolling average loss at bar `i` used by the RSI computation. -/
def avgLoss (p : ℕ) (closes : List ℚ) (i : ℕ) : Cell :=
  (sma p (losses closes)).getD i none

/-- The MACD line (src/main.py lines 58-60): EMA span 12 minus EMA span 26,
both over the close series, pointwise. -/
def macd (closes : List ℚ) : List ℚ :=
  List.zipWith (· - ·) (ewmMean 12 closes) (ewmMean 26 closes)

/-- The MACD signal line (src/main.py line 61): EMA span 9 of the MACD line. -/
def macdSignal (closes : List ℚ) : List ℚ :=
  ewmMean 9 (macd closes)

/-- A row-oriented table: named columns of cells, rows aligned by position.
The date index of the pandas frame is not modelled; rows are identified by
their position. -/
structure Table where
  cols : List (String × List Cell)
deriving Repr, DecidableEq

/-- Number of rows, read off the first column (all columns of a well-formed
table have this length). -/
def Table.nrows (t : Table) : ℕ :=
  match t.cols with
  | [] => 0
  | c :: _ => c.2.length

/-- Every column has the same length. -/
def Table.wellFormed (t : Table) : Prop :=
  ∀ c ∈ t.cols, c.2.length = t.nrows

/-- Looks up a column by name (first match, as in a pandas frame whose column
labels are unique). -/
def Table.col (t : Table) (name : String) : Option (List Cell) :=
  (t.cols.find? (fun c => c.1 = name)).map (fun c => c.2)

/-- The `Close` column as a finite series; `none` when the column is missing
(pandas would raise a KeyError) or contains an undefined cell (outside the
modelled domain: the data model guarantees finite positive closes). -/
def closeColumn (t : Table) : Option (List ℚ) :=
  match t.col "Close" with
  | some cells => allSome cells
  | none => none

/-- Column assignment `df[name] = v`: overwrites an existing column of that
name in place, otherwise appends it on the right. -/
def Table.setCol (t : Table) (name : String) (v : List Cell) : Table :=
  if t.cols.any (fun c => c.1 = name) then
    ⟨t.cols.map (fun c => if c.1 = name then (name, v) else c)⟩
  else
    ⟨t.cols ++ [(name, v)]⟩

/-- Indices of the rows `df.dropna()` keeps: those where every column has a
defined cell. -/
def keptRows (t : Table) : List ℕ :=
  (List.range t.nrows).filter (fun i => t.cols.all (fun c => (c.2.getD i none).isSome))

/-- pandas `df.dropna(inplace=True)` (src/main.py line 63): every row
containing a NaN in any column is removed; the surviving cells are unchanged. -/
def dropna (t : Table) : Table :=
  ⟨t.cols.map (fun c => (c.1, (keptRows t).map (fun i => c.2.getD i none)))⟩

/-- The new columns computed for one indicator request (src/main.py
lines 47-61); the dispatch string is the upper-cased `--type` choice.  The
`period` option is used by the SMA, EMA and RSI branches and ignored by the
MACD branch, which hard-codes spans 12, 26 and 9. -/
def indicatorCols (ty : String) (period : ℕ) (closes : List ℚ) : List (String × List Cell) :=
  if ty = "SMA" then [("SMA", sma period closes)]
  else if ty = "EMA" then [("EMA", (ewmMean period closes).map some)]
  else if ty = "RSI" then [("RSI", rsi period closes)]
  else if ty = "MACD" then
    [("MACD", (macd closes).map some), ("Signal", (macdSignal closes).map some)]
  else []

/-- The `indicator` command core (src/main.py lines 42-64): read the frame,
compute the requested indicator columns from `Close`, assign them, and drop
every row containing an undefined cell.  `none` when the `Close` column is
missing or not fully finite (outside the modelled domain). -/
def indicatorOp (ty : String) (period : ℕ) (t : Table) : Option Table :=
  match closeColumn t with
  | none => none
  | some closes =>
      some (dropna ((indicatorCols ty period closes).foldl
        (fun acc c => acc.setCol c.1 c.2) t))

/-- Position state of the single-position simulator (spec §4.3; the strategy
in src/strategies/ma_crossover.py holds either no position or one long
position). -/
inductive Position
  | Flat
  | Long
deriving Repr, DecidableEq

/-- Simulator state: position, available cash and fractional units held. -/
structure SimState where
  pos : Position
  cash : ℚ
  units : ℚ
deriving Repr, DecidableEq

instance : Inhabited SimState := ⟨⟨Position.Flat, 0, 0⟩⟩

/-- Modelled from the spec: order execution is performed by the external
backtrader broker, not by repository code.  Spec §4.3 gives the per-bar rule
driven by the transition conditions of `MovingAverageCrossover.next`
(src/strategies/ma_crossover.py lines 13-18): when Flat and the crossover is
positive, buy with the entire cash at this bar's close (fractional units);
when Long and the crossover is negative, sell the entire holdings at this
bar's close; otherwise no trade. -/
def stepBar (st : SimState) (close : ℚ) (cross : ℤ) : SimState :=
  match st.pos with
  | Position.Flat => if 0 < cross then ⟨Position.Long, 0, st.cash / close⟩ else st
  | Position.Long => if cross < 0 then ⟨Position.Flat, st.units * close, 0⟩ else st

/-- The state trace of the simulation: the initial state followed by the state
after each bar. -/
def simStatesAux (st : SimState) : List (ℚ × ℤ) → List SimState
  | [] => [st]
  | (close, cr) :: rest => st :: simStatesAux (stepBar st close cr) rest

/-- Modelled from the spec: the CrossOver indicator comes from the external
backtrader library.  Spec §4.2: the crossover value at a bar is positive when
short minus long changes from non-positive at the prior bar to positive at
this bar (both moving averages defined at both bars), negative in the mirror
case, and zero otherwise; the first bar is always zero. -/
def crossAt (s l : List Cell) : ℕ → ℤ
  | 0 => 0
  | j + 1 =>
      match s.getD (j + 1) none, l.getD (j + 1) none, s.getD j none, l.getD j none with
      | some sc, some lc, some sp, some lp =>
          if sp ≤ lp ∧ lc < sc then 1
          else if lp ≤ sp ∧ sc < lc then -1
          else 0
      | _, _, _, _ => 0

/-- The crossover signal series of two simple moving averages of the close
series (src/strategies/ma_crossover.py lines 10-12 build exactly this pair of
SMAs and their CrossOver). -/
def crossoverSignal (shortP longP : ℕ) (closes : List ℚ) : List ℤ :=
  (List.range closes.length).map (crossAt (sma shortP closes) (sma longP closes))

/-- Initial simulator state: Flat with cash 100000 (src/main.py line 88
`cerebro.broker.setcash(100000.0)`) and no holdings. -/
def initState : SimState := ⟨Position.Flat, 100000, 0⟩

/-- The state trace of the ma_crossover strategy over a close series, with the
fixed short period 50 and long period 200 from the strategy parameters
(src/strategies/ma_crossover.py lines 6-9); the backtest command supplies no
overriding parameters (src/main.py line 85). -/
def maStates (closes : List ℚ) : List SimState :=
  simStatesAux initState (closes.zip (crossoverSignal 50 200 closes))

/-- Failure modes of the backtest run (spec §4.3). -/
inductive BtError
  | EmptySeries
  | InsufficientHistory
deriving Repr, DecidableEq

/-- Modelled from the spec: the simulation loop and its failure modes live in
the external backtrader engine invoked by src/main.py lines 75-95.  Spec §4.3:
the run fails with `EmptySeries` on a zero-bar input and with
`InsufficientHistory` when the requested moving-average periods (here the long
period 200) exceed the series length; otherwise it walks the bars in order
from the initial state. -/
def runBacktest (closes : List ℚ) : Except BtError (List SimState) :=
  if closes.length = 0 then Except.error BtError.EmptySeries
  else if closes.length < 200 then Except.error BtError.InsufficientHistory
  else Except.ok (maStates closes)

/-! ### Helper lemmas -/

theorem allSome_map_some (l : List ℚ) : allSome (l.map some) = some l := by
  induction l with
  | nil => rfl
  | cons x xs ih => simp [allSome, ih]

theorem rollingMeanC_length (w : ℕ) (xs : List Cell) :
    (rollingMeanC w xs).length = xs.length := by
  simp [rollingMeanC]

theorem rollingMeanC_getD (w : ℕ) (xs : List Cell) (i : ℕ) (h : i < xs.length) :
    (rollingMeanC w xs).getD i none = rollingMeanAt w xs i := by
  simp [rollingMeanC, List.getD_eq_getElem?_getD, List.getElem?_map, List.getElem?_range h]

theorem sma_window_length (p : ℕ) (closes : List ℚ) (i : ℕ)
    (hpi : p ≤ i + 1) (hi : i < closes.length) :
    ((closes.drop (i + 1 - p)).take p).length = p := by
  simp only [List.length_take, List.length_drop]
  omega

theorem sma_getD_defined (p : ℕ) (closes : List ℚ) (i : ℕ)
    (hp : 1 ≤ p) (hpi : p ≤ i + 1) (hi : i < closes.length) :
    (sma p closes).getD i none =
      some ((((closes.drop (i + 1 - p)).take p).sum) / (p : ℚ)) := by
  have hlen : i < (closes.map some).length := by simpa using hi
  rw [sma, rollingMeanC_getD p (closes.map some) i hlen]
  have hwin : ((closes.map some).drop (i + 1 - p)).take p
      = ((closes.drop (i + 1 - p)).take p).map some := by
    rw [← List.map_drop, ← List.map_take]
  rw [rollingMeanAt, if_neg (by omega), hwin, allSome_map_some]

theorem sma_getD_undefined (p : ℕ) (closes : List ℚ) (i : ℕ) (hpi : i + 1 < p) :
    (sma p closes).getD i none = none := by
  by_cases hi : i < closes.length
  · have hlen : i < (closes.map some).length := by simpa using hi
    rw [sma, rollingMeanC_getD p (closes.map some) i hlen, rollingMeanAt,
      if_pos (Or.inr hpi)]
  · rw [List.getD_eq_getElem?_getD, List.getElem?_eq_none]
    · rfl
    · rw [sma, rollingMeanC_length]
      simpa using Nat.le_of_not_lt hi

theorem countP_range_le (n k : ℕ) :
    (List.range n).countP (fun i => decide (k ≤ i)) = n - k := by
  induction n with
  | zero => simp
  | succ n ih =>
      rw [List.range_succ, List.countP_append, ih]
      by_cases h : k ≤ n
      · simp [List.countP_cons, h]
        omega
      · simp [List.countP_cons, h]
        omega

theorem sma_count_defined (p : ℕ) (closes : List ℚ)
    (hp : 1 ≤ p) (hlen : p ≤ closes.length) :
    (sma p closes).countP (fun c => c.isSome) = closes.length - p + 1 := by
  have hmap : (closes.map some).length = closes.length := by simp
  rw [sma, rollingMeanC, List.countP_map, hmap]
  have hcongr : ∀ i ∈ List.range closes.length,
      ((fun c => c.isSome) ∘ rollingMeanAt p (closes.map some)) i = true ↔
        (fun i => decide (p - 1 ≤ i)) i = true := by
    intro i hi
    have hi' : i < closes.length := List.mem_range.mp hi
    constructor
    · intro hsome
      by_contra hlt
      have : i + 1 < p := by
        simp only [decide_eq_true_eq] at hlt
        omega
      simp only [Function.comp_apply, rollingMeanAt, if_pos (Or.inr this),
        Option.isSome_none] at hsome
      exact Bool.false_ne_true hsome
    · intro hge
      simp only [decide_eq_true_eq] at hge
      have hpi : p ≤ i + 1 := by omega
      have hwin : ((closes.map some).drop (i + 1 - p)).take p
          = ((closes.drop (i + 1 - p)).take p).map some := by
        rw [← List.map_drop, ← List.map_take]
      simp only [Function.comp_apply, rollingMeanAt, if_neg (by omega : ¬(p = 0 ∨ i + 1 < p)),
        hwin, allSome_map_some, Option.isSome_some]
  rw [List.countP_congr hcongr, countP_range_le]
  omega

/-! ### Claims -/

/-- C2: for every positive period `p` and close series of length at least `p`,
the SMA output has exactly `len - p + 1` defined values; the value at each
index `i ≥ p-1` is the arithmetic mean (sum divided by the window length `p`)
of the closes in the window `[i-p+1, i]`, and every index `i < p-1` is
undefined. -/
theorem sma_windowing (p : ℕ) (closes : List ℚ)
    (hp : 1 ≤ p) (hlen : p ≤ closes.length) :
    (sma p closes).countP (fun c => c.isSome) = closes.length - p + 1 ∧
    (∀ i, p ≤ i + 1 → i < closes.length →
      ((closes.drop (i + 1 - p)).take p).length = p ∧
      (sma p closes).getD i none =
        some ((((closes.drop (i + 1 - p)).take p).sum) / (p : ℚ))) ∧
    (∀ i, i + 1 < p → (sma p closes).getD i none = none) := by
  refine ⟨sma_count_defined p closes hp hlen, ?_, ?_⟩
  · intro i hpi hi
    exact ⟨sma_window_length p closes i hpi hi, sma_getD_defined p closes i hp hpi hi⟩
  · intro i hip
    exact sma_getD_undefined p closes i hip

/-- C2 witness: the spec's literal scenario, closes `[100,102,104,106,108]`
with period 2: four defined values, `SMA` at bar index 1 equals 101, and bar
index 0 is undefined. -/
theorem sma_windowing_witness :
    (sma 2 [100, 102, 104, 106, 108]).countP (fun c => c.isSome) = 4 ∧
    (sma 2 [100, 102, 104, 106, 108]).getD 1 none = some 101 ∧
    (sma 2 [100, 102, 104, 106, 108]).getD 0 none = none := by
  have h := sma_windowing 2 [100, 102, 104, 106, 108] (by norm_num) (by norm_num)
  refine ⟨h.1, ?_, (h.2.2 0 (by norm_num))⟩
  have h2 := (h.2.1 1 (by norm_num) (by norm_num)).2
  norm_num at h2
  exact h2

theorem ewmFrom_length (a prev : ℚ) (xs : List ℚ) :
    (ewmFrom a prev xs).length = xs.length := by
  induction xs generalizing prev with
  | nil => rfl
  | cons x rest ih => simp [ewmFrom, ih]

theorem ewmMean_length (span : ℕ) (xs : List ℚ) :
    (ewmMean span xs).length = xs.length := by
  cases xs with
  | nil => rfl
  | cons x rest => simp [ewmMean, ewmFrom_length]

theorem ewmFrom_getD_succ (a : ℚ) (xs : List ℚ) (prev : ℚ) (i : ℕ)
    (h : i + 1 < xs.length) :
    (ewmFrom a prev xs).getD (i + 1) 0 =
      a * xs.getD (i + 1) 0 + (1 - a) * (ewmFrom a prev xs).getD i 0 := by
  induction xs generalizing prev i with
  | nil => simp at h
  | cons x rest ih =>
      cases i with
      | zero =>
          cases rest with
          | nil => simp at h
          | cons r rest2 => simp [ewmFrom]; ring
      | succ j =>
          have hj : j + 1 < rest.length := by simpa using h
          simpa [ewmFrom] using ih ((1 - a) * prev + a * x) j hj

/-- C3: for every nonempty close series and span at least 1 (the domain pandas
`ewm` accepts), the EMA output is defined at every index (same length as the
input), the value at index 0 is exactly the first close, and each later value
satisfies `EMA[i] = α·close[i] + (1-α)·EMA[i-1]` with `α = 2/(span+1)`. -/
theorem ewm_recurrence (span : ℕ) (closes : List ℚ)
    (hs : 1 ≤ span) (hne : closes ≠ []) :
    (ewmMean span closes).length = closes.length ∧
    (ewmMean span closes).getD 0 0 = closes.getD 0 0 ∧
    ∀ i, i + 1 < closes.length →
      (ewmMean span closes).getD (i + 1) 0 =
        (2 / ((span : ℚ) + 1)) * closes.getD (i + 1) 0 +
          (1 - 2 / ((span : ℚ) + 1)) * (ewmMean span closes).getD i 0 := by
  refine ⟨ewmMean_length span closes, ?_, ?_⟩
  · cases closes with
    | nil => simp at hne
    | cons x rest => simp [ewmMean]
  · intro i hi
    cases closes with
    | nil => simp at hi
    | cons x rest =>
        cases i with
        | zero =>
            cases rest with
            | nil => simp at hi
            | cons r rest2 => simp [ewmMean, ewmFrom]; ring
        | succ j =>
            have hj : j + 1 < rest.length := by simpa using hi
            simpa [ewmMean] using
              ewmFrom_getD_succ (2 / ((span : ℚ) + 1)) rest x j hj

/-- C3 witness: closes `[4, 8]` with span 3 (so α = 1/2): the EMA has length
2, seeds at 4, and satisfies the recurrence at index 1. -/
theorem ewm_recurrence_witness :
    (ewmMean 3 [4, 8]).length = 2 ∧
    (ewmMean 3 [4, 8]).getD 0 0 = 4 ∧
    (ewmMean 3 [4, 8]).getD 1 0 =
      (2 / ((3 : ℚ) + 1)) * (([4, 8] : List ℚ).getD 1 0) +
        (1 - 2 / ((3 : ℚ) + 1)) * (ewmMean 3 [4, 8]).getD 0 0 := by
  have h := ewm_recurrence 3 [4, 8] (by norm_num) (by simp)
  exact ⟨by simpa using h.1, by simpa using h.2.1, h.2.2 0 (by norm_num)⟩

theorem getD_zipWith (f : Cell → Cell → Cell) (as bs : List Cell) (i : ℕ)
    (h1 : i < as.length) (h2 : i < bs.length) :
    (List.zipWith f as bs).getD i none = f (as.getD i none) (bs.getD i none) := by
  have hl : i < (List.zipWith f as bs).length := by simp; omega
  rw [List.getD_eq_getElem?_getD, List.getElem?_eq_getElem hl]
  simp [List.getElem_zipWith, List.getD_eq_getElem?_getD,
    List.getElem?_eq_getElem h1, List.getElem?_eq_getElem h2]

theorem getD_of_length_le {α : Type} (as : List α) (i : ℕ) (d : α)
    (h : as.length ≤ i) : as.getD i d = d := by
  rw [List.getD_eq_getElem?_getD, List.getElem?_eq_none h]
  rfl

theorem sma_length (p : ℕ) (l : List ℚ) : (sma p l).length = l.length := by
  simp [sma, rollingMeanC]

theorem sma_getD_some (p : ℕ) (l : List ℚ) (i : ℕ) (v : ℚ)
    (h : (sma p l).getD i none = some v) :
    1 ≤ p ∧ p ≤ i + 1 ∧ i < l.length ∧
      v = (((l.drop (i + 1 - p)).take p).sum) / (p : ℚ) := by
  by_cases hi : i < l.length
  · by_cases hc : 1 ≤ p ∧ p ≤ i + 1
    · rw [sma_getD_defined p l i hc.1 hc.2 hi] at h
      exact ⟨hc.1, hc.2, hi, (Option.some.inj h).symm⟩
    · have hnone : (sma p l).getD i none = none := by
        rw [sma, rollingMeanC_getD _ _ _ (by simpa using hi), rollingMeanAt,
          if_pos (by omega)]
      rw [hnone] at h
      exact absurd h (by simp)
  · have hnone : (sma p l).getD i none = none := by
      refine getD_of_length_le _ _ _ ?_
      rw [sma_length]
      omega
    rw [hnone] at h
    exact absurd h (by simp)

theorem mem_zipWith_nonneg (f : ℚ → ℚ → ℚ) (hf : ∀ a b, 0 ≤ f a b) :
    ∀ (as bs : List ℚ), ∀ x ∈ List.zipWith f as bs, 0 ≤ x := by
  intro as
  induction as with
  | nil => intro bs x hx; simp at hx
  | cons a as ih =>
      intro bs x hx
      cases bs with
      | nil => simp at hx
      | cons b bs =>
          simp only [List.zipWith_cons_cons, List.mem_cons] at hx
          rcases hx with h | h
          · exact h ▸ hf a b
          · exact ih bs x h

theorem gains_nonneg (closes : List ℚ) : ∀ x ∈ gains closes, 0 ≤ x := by
  cases closes with
  | nil => simp [gains]
  | cons c rest =>
      intro x hx
      simp only [gains, List.mem_cons] at hx
      rcases hx with h | h
      · simp [h]
      · exact mem_zipWith_nonneg _ (fun a b => le_max_right _ _) _ _ x h

theorem losses_nonneg (closes : List ℚ) : ∀ x ∈ losses closes, 0 ≤ x := by
  cases closes with
  | nil => simp [losses]
  | cons c rest =>
      intro x hx
      simp only [losses, List.mem_cons] at hx
      rcases hx with h | h
      · simp [h]
      · exact mem_zipWith_nonneg _ (fun a b => le_max_right _ _) _ _ x h

theorem gains_length (closes : List ℚ) : (gains closes).length = closes.length := by
  cases closes with
  | nil => rfl
  | cons c rest => simp [gains]

theorem losses_length (closes : List ℚ) : (losses closes).length = closes.length := by
  cases closes with
  | nil => rfl
  | cons c rest => simp [losses]

theorem sma_getD_nonneg (p : ℕ) (l : List ℚ) (i : ℕ) (v : ℚ)
    (hl : ∀ x ∈ l, 0 ≤ x) (h : (sma p l).getD i none = some v) : 0 ≤ v := by
  obtain ⟨hp, hpi, hi, hv⟩ := sma_getD_some p l i v h
  rw [hv]
  refine div_nonneg (List.sum_nonneg ?_) (by positivity)
  intro x hx
  exact hl x (List.mem_of_mem_drop (List.mem_of_mem_take hx))

theorem rsi_length (p : ℕ) (closes : List ℚ) :
    (rsi p closes).length = closes.length := by
  simp [rsi, sma_length, gains_length, losses_length]

theorem rsi_getD (p : ℕ) (closes : List ℚ) (i : ℕ) (hi : i < closes.length) :
    (rsi p closes).getD i none = rsiCell (avgGain p closes i) (avgLoss p closes i) := by
  rw [rsi, getD_zipWith]
  · rfl
  · rw [sma_length, gains_length]; exact hi
  · rw [sma_length, losses_length]; exact hi

theorem rsiCell_none_left (l : Cell) : rsiCell none l = none := by
  cases l <;> rfl

theorem rsiCell_none_right (g : Cell) : rsiCell g none = none := by
  cases g <;> rfl

theorem rsiCell_some (gv lv : ℚ) :
    rsiCell (some gv) (some lv) =
      if lv ≠ 0 then some (100 - 100 / (1 + gv / lv))
      else if gv ≠ 0 then some 100
      else none := rfl

/-- C4 counterexample: on the constant close series `[1,1,1]` with period 2,
the rolling average gain and loss are both 0 from bar index 1 onward, RS is
the float indeterminate 0/0, and the RSI cell at bar index 1 is undefined —
although `1 ≥ period - 1`, where the claim asserts a defined value. -/
theorem rsi_defined_cex :
    (rsi 2 [1, 1, 1]).length = 3 ∧ (rsi 2 [1, 1, 1]).getD 1 none = none := by
  have hg : gains [1, 1, 1] = [0, 0, 0] := by norm_num [gains]
  have hl : losses [1, 1, 1] = [0, 0, 0] := by norm_num [losses]
  have hz : (sma 2 [0, 0, 0]).getD 1 none = some 0 := by
    rw [sma_getD_defined 2 [0, 0, 0] 1 (by norm_num) (by norm_num) (by norm_num)]
    norm_num
  constructor
  · simpa using rsi_length 2 [1, 1, 1]
  · rw [rsi_getD 2 [1, 1, 1] 1 (by norm_num), avgGain, avgLoss, hg, hl, hz,
      rsiCell_some]
    norm_num

/-- C4 (amended): the RSI output is aligned with the input, undefined for the
first `period - 1` bars, and at each bar from index `period - 1` onward it is
defined exactly when the rolling average gain and the rolling average loss are
not both zero (when both are zero the float quotient is 0/0 = NaN and the cell
is undefined, the open question the spec flags in §9). -/
theorem rsi_windowing (p : ℕ) (closes : List ℚ) (hp : 1 ≤ p) :
    (rsi p closes).length = closes.length ∧
    (∀ i, i + 1 < p → (rsi p closes).getD i none = none) ∧
    ∀ i, i < closes.length → p ≤ i + 1 →
      ((rsi p closes).getD i none ≠ none ↔
        ¬(avgGain p closes i = some 0 ∧ avgLoss p closes i = some 0)) := by
  refine ⟨rsi_length p closes, ?_, ?_⟩
  · intro i hi
    by_cases hlen : i < closes.length
    · rw [rsi_getD p closes i hlen, avgGain, sma_getD_undefined p _ i hi,
        rsiCell_none_left]
    · exact getD_of_length_le _ _ _ (by rw [rsi_length]; omega)
  · intro i hlen hpi
    obtain ⟨gq, hG⟩ : ∃ gq, avgGain p closes i = some gq :=
      ⟨_, sma_getD_defined p (gains closes) i hp hpi (by rw [gains_length]; exact hlen)⟩
    obtain ⟨lq, hL⟩ : ∃ lq, avgLoss p closes i = some lq :=
      ⟨_, sma_getD_defined p (losses closes) i hp hpi (by rw [losses_length]; exact hlen)⟩
    rw [rsi_getD p closes i hlen, hG, hL, rsiCell_some]
    by_cases hlz : lq = 0
    · by_cases hgz : gq = 0
      · simp [hlz, hgz]
      · simp [hlz, hgz]
    · simp [hlz]

/-- C4 witness: period 2 over closes `[1, 2, 3]`: bar 0 is undefined, and at
bar 1 the definedness criterion of the amended claim is available. -/
theorem rsi_windowing_witness :
    (rsi 2 [1, 2, 3]).length = 3 ∧
    (rsi 2 [1, 2, 3]).getD 0 none = none ∧
    ((rsi 2 [1, 2, 3]).getD 1 none ≠ none ↔
      ¬(avgGain 2 [1, 2, 3] 1 = some 0 ∧ avgLoss 2 [1, 2, 3] 1 = some 0)) := by
  have h := rsi_windowing 2 [1, 2, 3] (by norm_num)
  exact ⟨by simpa using h.1, h.2.1 0 (by norm_num), h.2.2 1 (by norm_num) (by norm_num)⟩

/-- C5: every defined RSI value lies in `[0, 100]`; and whenever the rolling
average loss is zero while the rolling average gain is positive, the RSI value
is exactly 100 (the float division yields an infinite RS which the final
formula maps to 100 — no fault occurs). -/
theorem rsi_bounds (p : ℕ) (closes : List ℚ) (i : ℕ) :
    (∀ v, (rsi p closes).getD i none = some v → 0 ≤ v ∧ v ≤ 100) ∧
    (∀ gv, avgGain p closes i = some gv → 0 < gv →
      avgLoss p closes i = some 0 → (rsi p closes).getD i none = some 100) := by
  constructor
  · intro v hv
    by_cases hlen : i < closes.length
    · rw [rsi_getD p closes i hlen] at hv
      rcases hG : avgGain p closes i with _ | gq
      · rw [hG, rsiCell_none_left] at hv; exact absurd hv (by simp)
      · rcases hL : avgLoss p closes i with _ | lq
        · rw [hG, hL, rsiCell_none_right] at hv; exact absurd hv (by simp)
        · have hg0 : 0 ≤ gq := sma_getD_nonneg p _ i gq (gains_nonneg closes) hG
          have hl0 : 0 ≤ lq := sma_getD_nonneg p _ i lq (losses_nonneg closes) hL
          rw [hG, hL, rsiCell_some] at hv
          by_cases hlz : lq = 0
          · by_cases hgz : gq = 0
            · simp [hlz, hgz] at hv
            · simp [hlz, hgz] at hv
              rw [← hv]; norm_num
          · simp [hlz] at hv
            have hlpos : 0 < lq := lt_of_le_of_ne hl0 (Ne.symm hlz)
            have hq : 0 ≤ gq / lq := div_nonneg hg0 hl0
            have hden : (1 : ℚ) ≤ 1 + gq / lq := by linarith
            have hle : 100 / (1 + gq / lq) ≤ 100 :=
              div_le_self (by norm_num) hden
            have hpos : 0 < 100 / (1 + gq / lq) :=
              div_pos (by norm_num) (by linarith)
            rw [← hv]
            constructor <;> linarith
    · rw [getD_of_length_le _ _ _ (by rw [rsi_length]; omega)] at hv
      exact absurd hv (by simp)
  · intro gv hG hpos hL
    have hlen : i < closes.length := by
      have := (sma_getD_some p (gains closes) i gv hG).2.2.1
      rw [gains_length] at this
      exact this
    rw [rsi_getD p closes i hlen, hG, hL, rsiCell_some]
    simp [ne_of_gt hpos]

/-- C5 witness: period 2 over closes `[1, 2, 3]` at bar 1: the average loss is
0, the average gain is 1/2 > 0, the RSI value is exactly 100 and lies in
`[0, 100]`. -/
theorem rsi_bounds_witness :
    (rsi 2 [1, 2, 3]).getD 1 none = some 100 ∧ (0 : ℚ) ≤ 100 ∧ (100 : ℚ) ≤ 100 := by
  have hg : gains [1, 2, 3] = [0, 1, 1] := by norm_num [gains]
  have hl : losses [1, 2, 3] = [0, 0, 0] := by norm_num [losses]
  have hG : avgGain 2 [1, 2, 3] 1 = some (1 / 2) := by
    rw [avgGain, hg, sma_getD_defined 2 [0, 1, 1] 1 (by norm_num) (by norm_num) (by norm_num)]
    norm_num
  have hL : avgLoss 2 [1, 2, 3] 1 = some 0 := by
    rw [avgLoss, hl, sma_getD_defined 2 [0, 0, 0] 1 (by norm_num) (by norm_num) (by norm_num)]
    norm_num
  have h100 := (rsi_bounds 2 [1, 2, 3] 1).2 (1 / 2) hG (by norm_num) hL
  exact ⟨h100, ((rsi_bounds 2 [1, 2, 3] 1).1 100 h100).1,
    ((rsi_bounds 2 [1, 2, 3] 1).1 100 h100).2⟩

/-- C6: the MACD branch ignores the supplied period option entirely — the two
EMA spans 12 and 26 are fixed — the MACD line is the pointwise difference of
those two EMAs of the closes, and the Signal line is exactly the span-9 EMA of
the MACD series, as recomputed directly. -/
theorem macd_fixed_spans (t : Table) (p q : ℕ) (closes : List ℚ)
    (hc : closeColumn t = some closes) :
    indicatorOp "MACD" p t = indicatorOp "MACD" q t ∧
    macd closes = List.zipWith (fun a b => a - b) (ewmMean 12 closes) (ewmMean 26 closes) ∧
    macdSignal closes = ewmMean 9 (macd closes) := by
  refine ⟨?_, rfl, rfl⟩
  simp [indicatorOp, hc, indicatorCols]

/-- C6 witness: a one-row table with close 1: MACD with periods 14 and 5
produce the same output, and both derived series agree with the direct
recomputation. -/
theorem macd_fixed_spans_witness :
    indicatorOp "MACD" 14 (Table.mk [("Close", [some 1])]) =
      indicatorOp "MACD" 5 (Table.mk [("Close", [some 1])]) ∧
    macd [1] = List.zipWith (fun a b => a - b) (ewmMean 12 [1]) (ewmMean 26 [1]) ∧
    macdSignal [1] = ewmMean 9 (macd [1]) :=
  macd_fixed_spans (Table.mk [("Close", [some 1])]) 14 5 [1] (by decide)

theorem setCol_fresh (t : Table) (n : String) (v : List Cell)
    (h : ∀ c ∈ t.cols, c.1 ≠ n) : t.setCol n v = Table.mk (t.cols ++ [(n, v)]) := by
  rw [Table.setCol, if_neg]
  simp only [List.any_eq_true, decide_eq_true_eq, not_exists]
  intro c
  rw [not_and]
  exact h c

theorem closeColumn_cols_ne_nil (t : Table) (closes : List ℚ)
    (hc : closeColumn t = some closes) : t.cols ≠ [] := by
  intro h
  rw [closeColumn, Table.col, h] at hc
  simp [List.find?] at hc

theorem nrows_append (t : Table) (more : List (String × List Cell))
    (h : t.cols ≠ []) : (Table.mk (t.cols ++ more)).nrows = t.nrows := by
  cases hcols : t.cols with
  | nil => exact absurd hcols h
  | cons c cs => simp [Table.nrows, hcols]

theorem allSome_length (cells : List Cell) (l : List ℚ)
    (h : allSome cells = some l) : l.length = cells.length := by
  induction cells generalizing l with
  | nil =>
      simp only [allSome] at h
      simp [← Option.some.inj h]
  | cons c cs ih =>
      cases c with
      | none => simp [allSome] at h
      | some x =>
          simp only [allSome] at h
          cases hcs : allSome cs with
          | none => rw [hcs] at h; simp at h
          | some l2 =>
              rw [hcs] at h
              simp only [Option.map_some'] at h
              rw [← Option.some.inj h]
              simp [ih l2 hcs]

theorem closeColumn_length (t : Table) (closes : List ℚ)
    (hwf : t.wellFormed) (hc : closeColumn t = some closes) :
    closes.length = t.nrows := by
  rw [closeColumn] at hc
  cases hcol : t.col "Close" with
  | none => rw [hcol] at hc; simp at hc
  | some cells =>
      rw [hcol] at hc
      have hlen : closes.length = cells.length := allSome_length cells closes hc
      rw [Table.col] at hcol
      cases hfind : t.cols.find? (fun c => c.1 = "Close") with
      | none => rw [hfind] at hcol; simp at hcol
      | some c =>
          rw [hfind] at hcol
          simp only [Option.map_some', Option.some.injEq] at hcol
          have hmem : c ∈ t.cols := List.mem_of_find?_eq_some hfind
          rw [hlen, ← hcol]
          exact hwf c hmem

theorem getD_append_left {α : Type} (l l2 : List α) (n : ℕ) (d : α)
    (h : n < l.length) : (l ++ l2).getD n d = l.getD n d := by
  rw [List.getD_eq_getElem?_getD, List.getElem?_append, if_pos h,
    ← List.getD_eq_getElem?_getD]

theorem mem_keptRows (t : Table) (i : ℕ) :
    i ∈ keptRows t ↔
      i < t.nrows ∧ t.cols.all (fun c => (c.2.getD i none).isSome) = true := by
  simp [keptRows, List.mem_filter, List.mem_range]

theorem dropna_col_getD (t : Table) (j : ℕ) (hj : j < t.cols.length) :
    (dropna t).cols.getD j ("", []) =
      ((t.cols.getD j ("", [])).1,
        (keptRows t).map (fun i => (t.cols.getD j ("", [])).2.getD i none)) := by
  rw [dropna]
  rw [List.getD_eq_getElem?_getD, List.getElem?_map, List.getElem?_eq_getElem hj]
  simp [List.getD_eq_getElem?_getD, List.getElem?_eq_getElem hj]

theorem indicatorOp_eq_append (ty : String) (p : ℕ) (t : Table) (closes : List ℚ)
    (hc : closeColumn t = some closes)
    (hfresh : ∀ c ∈ t.cols, c.1 ∉ (["SMA", "EMA", "RSI", "MACD", "Signal"] : List String))
    (hty : ty = "SMA" ∨ ty = "EMA" ∨ ty = "RSI" ∨ ty = "MACD") :
    indicatorOp ty p t =
      some (dropna (Table.mk (t.cols ++ indicatorCols ty p closes))) := by
  have hS : ∀ n, n ∈ (["SMA", "EMA", "RSI", "MACD", "Signal"] : List String) →
      ∀ c ∈ t.cols, c.1 ≠ n := by
    intro n hn c hcm he
    exact hfresh c hcm (he ▸ hn)
  rcases hty with h | h | h | h <;> subst h
  · have hcols : indicatorCols "SMA" p closes = [("SMA", sma p closes)] := by
      simp [indicatorCols]
    simp only [indicatorOp, hc, hcols, List.foldl]
    rw [setCol_fresh t _ _ (hS "SMA" (by decide))]
  · have hcols : indicatorCols "EMA" p closes
        = [("EMA", (ewmMean p closes).map some)] := by
      simp [indicatorCols]
    simp only [indicatorOp, hc, hcols, List.foldl]
    rw [setCol_fresh t _ _ (hS "EMA" (by decide))]
  · have hcols : indicatorCols "RSI" p closes = [("RSI", rsi p closes)] := by
      simp [indicatorCols]
    simp only [indicatorOp, hc, hcols, List.foldl]
    rw [setCol_fresh t _ _ (hS "RSI" (by decide))]
  · have hcols : indicatorCols "MACD" p closes
        = [("MACD", (macd closes).map some), ("Signal", (macdSignal closes).map some)] := by
      simp [indicatorCols]
    have hfr2 : ∀ c ∈ (Table.mk (t.cols ++ [("MACD", (macd closes).map some)])).cols,
        c.1 ≠ "Signal" := by
      intro c hcm
      simp only [List.mem_append, List.mem_singleton] at hcm
      rcases hcm with h | h
      · exact hS "Signal" (by decide) c h
      · subst h
        simp
    simp only [indicatorOp, hc, hcols, List.foldl]
    rw [setCol_fresh t _ _ (hS "MACD" (by decide)), setCol_fresh _ _ _ hfr2]
    simp

/-- C7 counterexample: EMA (always defined) merged onto a two-row table whose
pre-existing `Extra` column has a NaN in row 0: the newly added column has no
undefined value, yet the emitted result has only one of the two rows — a row
was dropped because of a NaN in a pre-existing column, not in a newly added
one. -/
theorem indicator_dropna_cex :
    (indicatorCols "EMA" 3 [1, 2]).all (fun c => c.2.all (fun x => x.isSome)) = true ∧
    (Table.mk [("Close", [some 1, some 2]), ("Extra", [none, some 5])]).nrows = 2 ∧
    (indicatorOp "EMA" 3
        (Table.mk [("Close", [some 1, some 2]), ("Extra", [none, some 5])])).map
      Table.nrows = some 1 := by
  refine ⟨by simp [indicatorCols, ewmMean, ewmFrom], rfl, ?_⟩
  decide

/-- C7 (amended): the emitted result is the original table with the indicator
columns appended on the right, where a row is kept exactly when every column —
the pre-existing ones as well as the newly added ones — has a defined value at
it (so rows with an undefined value in any column are dropped, not only those
undefined in a newly added column); every pre-existing column, extra columns
included, passes through with its name and its surviving cells unchanged. -/
theorem indicator_merge_dropna (ty : String) (p : ℕ) (t : Table) (closes : List ℚ)
    (hc : closeColumn t = some closes)
    (hfresh : ∀ c ∈ t.cols, c.1 ∉ (["SMA", "EMA", "RSI", "MACD", "Signal"] : List String))
    (hty : ty = "SMA" ∨ ty = "EMA" ∨ ty = "RSI" ∨ ty = "MACD") :
    indicatorOp ty p t =
      some (dropna (Table.mk (t.cols ++ indicatorCols ty p closes))) ∧
    (∀ i, i ∈ keptRows (Table.mk (t.cols ++ indicatorCols ty p closes)) ↔
      i < t.nrows ∧
        ((t.cols ++ indicatorCols ty p closes).all
          (fun c => (c.2.getD i none).isSome)) = true) ∧
    ∀ j, j < t.cols.length →
      (dropna (Table.mk (t.cols ++ indicatorCols ty p closes))).cols.getD j ("", []) =
        ((t.cols.getD j ("", [])).1,
          (keptRows (Table.mk (t.cols ++ indicatorCols ty p closes))).map
            (fun i => (t.cols.getD j ("", [])).2.getD i none)) := by
  refine ⟨indicatorOp_eq_append ty p t closes hc hfresh hty, ?_, ?_⟩
  · intro i
    rw [mem_keptRows, nrows_append t _ (closeColumn_cols_ne_nil t closes hc)]
  · intro j hj
    have hj2 : j < (Table.mk (t.cols ++ indicatorCols ty p closes)).cols.length := by
      simp
      omega
    rw [dropna_col_getD _ j hj2]
    have hgd : (Table.mk (t.cols ++ indicatorCols ty p closes)).cols.getD j ("", []) =
        t.cols.getD j ("", []) := getD_append_left _ _ j _ hj
    rw [hgd]

/-- C7 witness: SMA with period 1 on a table with an extra `Volume` column
containing a NaN in row 1: the pipeline equation, the kept-row criterion at
row 0 and the pass-through of the `Volume` column are all instances of the
amended claim. -/
theorem indicator_merge_dropna_witness :
    indicatorOp "SMA" 1 (Table.mk [("Close", [some 2, some 4]), ("Volume", [some 7, none])]) =
      some (dropna (Table.mk ([("Close", [some 2, some 4]), ("Volume", [some 7, none])] ++
        indicatorCols "SMA" 1 [2, 4]))) ∧
    (0 ∈ keptRows (Table.mk ([("Close", [some 2, some 4]), ("Volume", [some 7, none])] ++
        indicatorCols "SMA" 1 [2, 4])) ↔
      0 < (Table.mk [("Close", [some 2, some 4]), ("Volume", [some 7, none])]).nrows ∧
        (([("Close", [some 2, some 4]), ("Volume", [some 7, none])] ++
          indicatorCols "SMA" 1 [2, 4]).all
            (fun c => (c.2.getD 0 none).isSome)) = true) ∧
    (dropna (Table.mk ([("Close", [some 2, some 4]), ("Volume", [some 7, none])] ++
        indicatorCols "SMA" 1 [2, 4]))).cols.getD 1 ("", []) =
      (("Volume" : String),
        (keptRows (Table.mk ([("Close", [some 2, some 4]), ("Volume", [some 7, none])] ++
          indicatorCols "SMA" 1 [2, 4]))).map
            (fun i => ([some 7, none] : List Cell).getD i none)) := by
  have h := indicator_merge_dropna "SMA" 1
    (Table.mk [("Close", [some 2, some 4]), ("Volume", [some 7, none])]) [2, 4]
    (by decide) (by decide) (Or.inl rfl)
  exact ⟨h.1, h.2.1 0, h.2.2 1 (by decide)⟩

theorem sma_getD_none (p : ℕ) (l : List ℚ) (i : ℕ) (hp : p = 0 ∨ i + 1 < p) :
    (sma p l).getD i none = none := by
  rcases hp with h | h
  · by_cases hi : i < l.length
    · rw [sma, rollingMeanC_getD _ _ _ (by simpa using hi), rollingMeanAt,
        if_pos (Or.inl h)]
    · exact getD_of_length_le _ _ _ (by rw [sma_length]; omega)
  · exact sma_getD_undefined p l i h

/-- C8 counterexample: SMA with period 5 over a 3-row table: the operation
completes and emits an empty table (all rows dropped) — it does not fail with
`InvalidParameter` or any other error; the code performs no period
validation. -/
theorem sma_invalid_period_cex :
    indicatorOp "SMA" 5 (Table.mk [("Close", [some 1, some 2, some 3])]) =
      some (Table.mk [("Close", []), ("SMA", [])]) := by
  decide

/-- C8 (amended): for period 0, or any period exceeding the series length, the
SMA column is entirely undefined, so the emitted result is the table with
every row dropped — the operation succeeds with an empty result instead of
failing with `InvalidParameter` (the code contains no period validation;
negative periods are rejected inside pandas with a `ValueError`, not an
`InvalidParameter` error). -/
theorem sma_invalid_period (t : Table) (p : ℕ) (closes : List ℚ)
    (hc : closeColumn t = some closes) (hwf : t.wellFormed)
    (hfresh : ∀ c ∈ t.cols, c.1 ∉ (["SMA", "EMA", "RSI", "MACD", "Signal"] : List String))
    (hp : p = 0 ∨ closes.length < p) :
    indicatorOp "SMA" p t =
      some (dropna (Table.mk (t.cols ++ [("SMA", sma p closes)]))) ∧
    keptRows (Table.mk (t.cols ++ [("SMA", sma p closes)])) = [] ∧
    (dropna (Table.mk (t.cols ++ [("SMA", sma p closes)]))).cols.all
      (fun c => c.2.isEmpty) = true := by
  have hcols : indicatorCols "SMA" p closes = [("SMA", sma p closes)] := by
    simp [indicatorCols]
  have h1 := indicatorOp_eq_append "SMA" p t closes hc hfresh (Or.inl rfl)
  rw [hcols] at h1
  have hkept : keptRows (Table.mk (t.cols ++ [("SMA", sma p closes)])) = [] := by
    rw [keptRows, List.filter_eq_nil_iff]
    intro i hi
    have hirange : i < (Table.mk (t.cols ++ [("SMA", sma p closes)])).nrows :=
      List.mem_range.mp hi
    rw [nrows_append t _ (closeColumn_cols_ne_nil t closes hc)] at hirange
    have hilen : i < closes.length := by
      rw [closeColumn_length t closes hwf hc]
      exact hirange
    have hsma : (sma p closes).getD i none = none :=
      sma_getD_none p closes i (by omega)
    rw [List.getD_eq_getElem?_getD] at hsma
    simp only [List.all_eq_true, not_forall]
    refine ⟨("SMA", sma p closes), ?_⟩
    simp [hsma]
  refine ⟨h1, hkept, ?_⟩
  simp [dropna, hkept, List.all_eq_true]

/-- C8 witness: a one-row close series with period 3 > 1: the operation emits
a result whose rows have all been dropped. -/
theorem sma_invalid_period_witness :
    indicatorOp "SMA" 3 (Table.mk [("Close", [some 5])]) =
      some (dropna (Table.mk ([("Close", [some 5])] ++ [("SMA", sma 3 [5])]))) ∧
    keptRows (Table.mk ([("Close", [some 5])] ++ [("SMA", sma 3 [5])])) = [] ∧
    (dropna (Table.mk ([("Close", [some 5])] ++ [("SMA", sma 3 [5])]))).cols.all
      (fun c => c.2.isEmpty) = true := by
  exact sma_invalid_period (Table.mk [("Close", [some 5])]) 3 [5]
    (by decide) (by unfold Table.wellFormed; decide) (by decide) (by norm_num)

theorem getD_zipWith_of_lt {α β γ : Type} (f : α → β → γ) (as : List α) (bs : List β)
    (i : ℕ) (da : α) (db : β) (dc : γ) (h1 : i < as.length) (h2 : i < bs.length) :
    (List.zipWith f as bs).getD i dc = f (as.getD i da) (bs.getD i db) := by
  have hl : i < (List.zipWith f as bs).length := by simp; omega
  rw [List.getD_eq_getElem?_getD, List.getElem?_eq_getElem hl]
  simp [List.getElem_zipWith, List.getD_eq_getElem?_getD,
    List.getElem?_eq_getElem h1, List.getElem?_eq_getElem h2]

theorem simStatesAux_getD_zero (st : SimState) (bars : List (ℚ × ℤ)) (d : SimState) :
    (simStatesAux st bars).getD 0 d = st := by
  cases bars with
  | nil => rfl
  | cons b rest => rfl

theorem simStatesAux_step (bars : List (ℚ × ℤ)) (st : SimState) (i : ℕ)
    (h : i < bars.length) :
    (simStatesAux st bars).getD (i + 1) default =
      stepBar ((simStatesAux st bars).getD i default)
        (bars.getD i (0, 0)).1 (bars.getD i (0, 0)).2 := by
  induction bars generalizing st i with
  | nil => simp at h
  | cons b rest ih =>
      cases i with
      | zero =>
          simp only [simStatesAux, List.getD_cons_succ, List.getD_cons_zero]
          rw [simStatesAux_getD_zero]
      | succ j =>
          have hj : j < rest.length := by simpa using h
          simpa only [simStatesAux, List.getD_cons_succ] using
            ih (stepBar st b.1 b.2) j hj

theorem crossoverSignal_getD (sp lp : ℕ) (closes : List ℚ) (i : ℕ)
    (h : i < closes.length) :
    (crossoverSignal sp lp closes).getD i 0 =
      crossAt (sma sp closes) (sma lp closes) i := by
  simp [crossoverSignal, List.getD_eq_getElem?_getD, List.getElem?_map,
    List.getElem?_range h]

theorem crossoverSignal_length (sp lp : ℕ) (closes : List ℚ) :
    (crossoverSignal sp lp closes).length = closes.length := by
  simp [crossoverSignal]

/-- C1: a run of the ma_crossover backtest starts Flat with cash 100000 and no
units; at every bar, from Flat with a positive crossover it moves to Long
buying with the entire cash at that bar's close (`units = cash/close`,
`cash = 0`), from Long with a negative crossover it moves to Flat selling all
holdings at that bar's close (`cash = units·close`, `units = 0`), and on every
other bar the state — position, cash and units — is unchanged (no trade). -/
theorem backtest_transitions (closes : List ℚ) (h0 : closes ≠ [])
    (h2 : 200 ≤ closes.length) :
    runBacktest closes = Except.ok (maStates closes) ∧
    (maStates closes).getD 0 default = initState ∧
    initState = ⟨Position.Flat, 100000, 0⟩ ∧
    ∀ i, i < closes.length →
      (maStates closes).getD (i + 1) default =
        (match ((maStates closes).getD i default).pos with
         | Position.Flat =>
             if 0 < (crossoverSignal 50 200 closes).getD i 0 then
               (⟨Position.Long, 0,
                 ((maStates closes).getD i default).cash / closes.getD i 0⟩ : SimState)
             else (maStates closes).getD i default
         | Position.Long =>
             if (crossoverSignal 50 200 closes).getD i 0 < 0 then
               (⟨Position.Flat,
                 ((maStates closes).getD i default).units * closes.getD i 0, 0⟩ : SimState)
             else (maStates closes).getD i default) := by
  refine ⟨?_, simStatesAux_getD_zero _ _ _, rfl, ?_⟩
  · rw [runBacktest, if_neg (by simpa using h0), if_neg (by omega)]
  · intro i hi
    have hbars : i < (closes.zip (crossoverSignal 50 200 closes)).length := by
      rw [List.length_zip, crossoverSignal_length]
      omega
    have hstep := simStatesAux_step (closes.zip (crossoverSignal 50 200 closes))
      initState i hbars
    have hzip : (closes.zip (crossoverSignal 50 200 closes)).getD i (0, 0) =
        (closes.getD i 0, (crossoverSignal 50 200 closes).getD i 0) := by
      rw [List.zip]
      exact getD_zipWith_of_lt Prod.mk closes (crossoverSignal 50 200 closes) i 0 0 (0, 0)
        hi (by rw [crossoverSignal_length]; omega)
    rw [maStates, hstep, hzip, stepBar]

/-- C1 witness: a 200-bar constant series: the run succeeds (returning the
simulated trace), whose initial state is Flat with cash 100000 and no units,
and the bar-0 transition equation holds. -/
theorem backtest_transitions_witness :
    runBacktest (List.replicate 200 (100 : ℚ)) =
      Except.ok (maStates (List.replicate 200 (100 : ℚ))) ∧
    (maStates (List.replicate 200 (100 : ℚ))).getD 0 default =
      (⟨Position.Flat, 100000, 0⟩ : SimState) := by
  have hlen : (List.replicate 200 (100 : ℚ)).length = 200 := List.length_replicate 200 100
  have hne : List.replicate 200 (100 : ℚ) ≠ [] := by
    intro he
    rw [he] at hlen
    simp at hlen
  have h := backtest_transitions (List.replicate 200 (100 : ℚ)) hne (by rw [hlen])
  exact ⟨h.1, h.2.2.1 ▸ h.2.1⟩

/-- C9: the backtest run fails with `EmptySeries` on a zero-bar series and
with `InsufficientHistory` on a nonempty series shorter than the 200-bar long
moving-average period — in both cases it does not run to completion. -/
theorem backtest_failure_modes (closes : List ℚ) :
    (closes = [] → runBacktest closes = Except.error BtError.EmptySeries) ∧
    (closes ≠ [] → closes.length < 200 →
      runBacktest closes = Except.error BtError.InsufficientHistory) := by
  constructor
  · intro h
    subst h
    rfl
  · intro h1 h2
    rw [runBacktest, if_neg (by simpa using h1), if_pos h2]

/-- C9 witness: the empty series and a one-bar series. -/
theorem backtest_failure_modes_witness :
    runBacktest ([] : List ℚ) = Except.error BtError.EmptySeries ∧
    runBacktest [1] = Except.error BtError.InsufficientHistory :=
  ⟨(backtest_failure_modes []).1 rfl,
    (backtest_failure_modes [1]).2 (by simp) (by simp)⟩

theorem sma200_getD_none (closes : List ℚ) (h : closes.length < 200) (j : ℕ) :
    (sma 200 closes).getD j none = none := by
  by_cases hj : j < closes.length
  · exact sma_getD_undefined 200 closes j (by omega)
  · exact getD_of_length_le _ _ _ (by rw [sma_length]; omega)

theorem crossAt_of_long_none (s l : List Cell) (j : ℕ)
    (hl : l.getD (j + 1) none = none) : crossAt s l (j + 1) = 0 := by
  cases hs : s.getD (j + 1) none with
  | none =>
      simp only [crossAt]
      rw [hs, hl]
  | some v =>
      simp only [crossAt]
      rw [hs, hl]

theorem stepBar_zero (st : SimState) (close : ℚ) : stepBar st close 0 = st := by
  cases hp : st.pos <;> simp [stepBar, hp]

theorem simStatesAux_const (st : SimState) (bars : List (ℚ × ℤ))
    (hb : ∀ b ∈ bars, b.2 = 0) : ∀ i, (simStatesAux st bars).getD i st = st := by
  induction bars with
  | nil =>
      intro i
      cases i <;> simp [simStatesAux]
  | cons b rest ih =>
      intro i
      have hb0 : b.2 = 0 := hb b (List.mem_cons_self b rest)
      have hstep : stepBar st b.1 b.2 = st := by rw [hb0, stepBar_zero]
      cases i with
      | zero => simp [simStatesAux]
      | succ j =>
          simp only [simStatesAux, hstep, List.getD_cons_succ]
          exact ih (fun b2 hb2 => hb b2 (List.mem_cons_of_mem b hb2)) j

/-- C10: the crossover rule compares simple moving averages of the close with
the fixed periods 50 and 200 (the strategy's parameter defaults; the backtest
command passes no overriding parameter), so on any series shorter than 200
bars the long moving average is never defined, the crossover signal is
identically zero, and the simulator never trades: every state of the trace is
the initial Flat state with untouched cash 100000 and zero units. -/
theorem short_series_no_trade (closes : List ℚ) (h : closes.length < 200) :
    (∀ i, (crossoverSignal 50 200 closes).getD i 0 = 0) ∧
    (∀ i, (maStates closes).getD i initState = initState) := by
  have hz : ∀ i, crossAt (sma 50 closes) (sma 200 closes) i = 0 := by
    intro i
    cases i with
    | zero => rfl
    | succ j => exact crossAt_of_long_none _ _ j (sma200_getD_none closes h (j + 1))
  constructor
  · intro i
    by_cases hi : i < closes.length
    · rw [crossoverSignal_getD 50 200 closes i hi, hz]
    · exact getD_of_length_le _ _ _ (by rw [crossoverSignal_length]; omega)
  · intro i
    refine simStatesAux_const initState _ ?_ i
    intro b hbm
    have h2 := (List.of_mem_zip hbm).2
    simp only [crossoverSignal, List.mem_map] at h2
    obtain ⟨j, _, hj⟩ := h2
    rw [← hj, hz]

/-- C10 witness: a 3-bar series: the crossover signal at bar 1 is zero and the
state after the last bar is still the initial state. -/
theorem short_series_no_trade_witness :
    (crossoverSignal 50 200 [1, 2, 3]).getD 1 0 = 0 ∧
    (maStates [1, 2, 3]).getD 3 initState = initState :=
  ⟨(short_series_no_trade [1, 2, 3] (by simp)).1 1,
    (short_series_no_trade [1, 2, 3] (by simp)).2 3⟩

end QuantCli
